import Mathlib

/-!
Verification of the specification of the underreporting repository.

The repository consists of demonstration notebooks for the Pogit
(Poisson-thinned / logit-reported) count model, synthetic-data generators, and
an R population-aggregation script.  The notebooks call into the external
regression engine (`regmod` and `xspline`); the code of that engine is not part of
the repository sources, so the engine-side operations below are modelled from
the specification, while the notebook generators, the `fitModel` driver and
the R script are embedded directly from the sources.
-/

namespace Underreporting

/-! ## Coefficient-vector splitting (Model layer)

`split_coefs` splits the full coefficient vector by the declared per-parameter
coefficient count, in construction order. -/

/-- Modelled from the spec: `regmod` `Model.split_coefs` is missing from the
sources.  "deterministic split by the declared coefficient count of each Parameter,
in construction order".  `sizes` is the list of declared per-parameter
coefficient counts, `coefs` the full coefficient vector. -/
def split_coefs (sizes : List ℕ) (coefs : List ℝ) : List (List ℝ) :=
  match sizes with
  | [] => []
  | s :: ss => coefs.take s :: split_coefs ss (coefs.drop s)

/-! ## Synthetic-data generators (Basic-Example, RoadInjuries-Tutorial)

`np.random.poisson` is modelled as an oracle `poissonDraw : ℕ → ℕ` giving the
drawn count for each row; `np.random.binomial(n, p)` is modelled as counting
the successes among `n` Bernoulli trials, the trial outcomes being supplied by
a per-row oracle of coin flips. -/

/-- `np.random.binomial(n=n, p=p)` modelled as the number of successes among
`n` Bernoulli trials with outcomes `flips`. -/
def binomialDraw (n : ℕ) (flips : ℕ → Bool) : ℕ :=
  ((Finset.range n).filter (fun i => flips i = true)).card

/-- `generateData` from `Basic-Example.ipynb` (also
`Regularizer-And-Constraint-Demos.ipynb`): per row `i`, draw
`n i ~ Poisson(true_lam)` and `y i ~ Binomial(n i, true_p)`; the returned
table is the list of `(y, n)` pairs (the covariates play no role in the
observation-count invariant). -/
def generateData (numObs : ℕ) (poissonDraw : ℕ → ℕ) (flips : ℕ → ℕ → Bool) :
    List (ℕ × ℕ) :=
  (List.range numObs).map (fun i => (binomialDraw (poissonDraw i) (flips i), poissonDraw i))

/-- `synthesizeData` from `RoadInjuries-Tutorial.ipynb`: for each row of
`processed_data`, draw `trueInjuries ~ Poisson(lamStar)` and
`observedInjuries ~ Binomial(trueInjuries, pStar)`; the returned table is the
list of `(true_injuries, observed_injuries)` pairs. -/
def synthesizeData {α : Type} (processed_data : List α) (poissonDraw : ℕ → ℕ)
    (flips : ℕ → ℕ → Bool) : List (ℕ × ℕ) :=
  (List.range processed_data.length).map
    (fun i => (poissonDraw i, binomialDraw (poissonDraw i) (flips i)))

/-! ## `fitModel` and its `pOptions` dictionary (Regularizer-And-Constraint-Demos)

`fitModel(var0_gen, var1_gen, pOptions={})` executes `N_TRIALS` loop
iterations, each one setting the key "variables" of the very
dictionary object passed in (or on the shared mutable default).  The Python
dictionary is modelled as a lookup function `String → Option V` and the
mutation as state passing. -/

/-- `d[k] = v` on a Python dictionary modelled as a lookup function. -/
def dictInsert {V : Type} (k : String) (v : V) (d : String → Option V) :
    String → Option V :=
  fun q => if q = k then some v else d q

/-- The effect of `fitModel` on its `pOptions` dictionary: iteration `i` of
the trial loop sets the key "variables" of `pOptions` to the variable list
of trial `i` (`varsOfTrial i`); the rest of the loop body does
not touch `pOptions`. -/
def fitModelPOptions {V : Type} (varsOfTrial : ℕ → V) (nTrials : ℕ)
    (d : String → Option V) : String → Option V :=
  (List.range nTrials).foldl (fun acc i => dictInsert "variables" (varsOfTrial i) acc) d

end Underreporting

namespace Underreporting

lemma split_coefs_nil (coefs : List ℝ) : split_coefs [] coefs = [] := rfl

/-- **C2**: for every tuple of per-parameter coefficient slices whose lengths
match the declared coefficient counts (in construction order),
`split_coefs` applied to their concatenation returns exactly that tuple:
splitting is the exact inverse of coefficient-vector assembly. -/
theorem split_coefs_roundtrip (sizes : List ℕ) (slices : List (List ℝ))
    (h : List.Forall₂ (fun s (l : List ℝ) => l.length = s) sizes slices) :
    split_coefs sizes slices.flatten = slices := by
  induction h with
  | nil => rfl
  | @cons s l ss ls hsl _ ih =>
      simp only [List.flatten_cons, split_coefs]
      subst hsl
      rw [List.take_left, List.drop_left, ih]

/-- Witness for C2 at a concrete pair of slices. -/
theorem split_coefs_roundtrip_witness :
    split_coefs [2, 1] ([[1, 2], [3]] : List (List ℝ)).flatten = [[1, 2], [3]] :=
  split_coefs_roundtrip [2, 1] [[1, 2], [3]]
    (List.Forall₂.cons (by simp) (List.Forall₂.cons (by simp) List.Forall₂.nil))

/-- **C8**: every observation table produced by the synthetic-data generators
satisfies the observation-table invariant: the observed count and the
trial count of each row are non-negative integers (here by the type `ℕ`) and the observed
count never exceeds the trial count, for every Poisson oracle and every
Bernoulli-flip oracle.  In `generateData` rows are `(y, n)`; in
`synthesizeData` rows are `(true_injuries, observed_injuries)`. -/
theorem generator_observation_invariant (numObs : ℕ) {α : Type}
    (processed_data : List α) (poissonDraw : ℕ → ℕ) (flips : ℕ → ℕ → Bool) :
    (∀ r ∈ generateData numObs poissonDraw flips, r.1 ≤ r.2) ∧
    (∀ r ∈ synthesizeData processed_data poissonDraw flips, r.2 ≤ r.1) := by
  constructor
  · intro r hr
    simp only [generateData, List.mem_map] at hr
    obtain ⟨i, -, rfl⟩ := hr
    simpa [binomialDraw] using
      (Finset.card_filter_le (Finset.range (poissonDraw i)) _).trans
        (le_of_eq (Finset.card_range _))
  · intro r hr
    simp only [synthesizeData, List.mem_map] at hr
    obtain ⟨i, -, rfl⟩ := hr
    simpa [binomialDraw] using
      (Finset.card_filter_le (Finset.range (poissonDraw i)) _).trans
        (le_of_eq (Finset.card_range _))

/-- Witness for C8: a concrete draw with 3 Poisson events of which 1 is
reported. -/
theorem generator_observation_invariant_witness :
    (1, 3) ∈ generateData 1 (fun _ => 3) (fun _ i => i = 0) ∧ (1 : ℕ) ≤ 3 := by
  refine ⟨by decide, ?_⟩
  exact (generator_observation_invariant 1 ([] : List Unit) (fun _ => 3)
    (fun _ i => i = 0)).1 (1, 3) (by decide)

lemma fitModelPOptions_other_key {V : Type} (varsOfTrial : ℕ → V) (nTrials : ℕ)
    (d : String → Option V) (k : String) (hk : k ≠ "variables") :
    fitModelPOptions varsOfTrial nTrials d k = d k := by
  induction nTrials with
  | zero => rfl
  | succ n ih =>
      unfold fitModelPOptions at ih ⊢
      rw [List.range_succ, List.foldl_append]
      simp only [List.foldl_cons, List.foldl_nil, dictInsert, if_neg hk]
      exact ih

/-- **C9**: `fitModel` mutates the dictionary passed as `pOptions` (or the
shared mutable default): after a call running a positive number of trials,
that dictionary maps `"variables"` to the variable list of the last trial, while
every other key is unchanged. -/
theorem fitModel_pOptions_mutation {V : Type} (varsOfTrial : ℕ → V)
    (nTrials : ℕ) (d : String → Option V) (hpos : 0 < nTrials) :
    fitModelPOptions varsOfTrial nTrials d "variables"
        = some (varsOfTrial (nTrials - 1)) ∧
    ∀ k, k ≠ "variables" → fitModelPOptions varsOfTrial nTrials d k = d k := by
  refine ⟨?_, fun k hk => fitModelPOptions_other_key varsOfTrial nTrials d k hk⟩
  obtain ⟨n, rfl⟩ := Nat.exists_eq_succ_of_ne_zero hpos.ne'
  unfold fitModelPOptions
  rw [List.range_succ, List.foldl_append]
  simp [dictInsert]

/-- Witness for C9: the `N_TRIALS = 50` loop of the notebook on an initially empty
dictionary leaves `"variables"` bound to the value of trial 49 and the unrelated
key `"inv_link"` unbound. -/
theorem fitModel_pOptions_mutation_witness :
    fitModelPOptions (fun i => i) 50 (fun _ => none) "variables" = some 49 ∧
    ∀ k, k ≠ "variables" → fitModelPOptions (fun i => i) 50 (fun _ => none) k = none :=
  fitModel_pOptions_mutation (fun i => i) 50 (fun _ => none) (by decide)

end Underreporting

namespace Underreporting.Pogit

/-! ## Pogit likelihood (Model layer)

Modelled from the spec: the `regmod` likelihood families are missing from the
sources.  Spec 4.5: Poisson has `nll = lam - y*log(lam)` up to constant; the
Pogit generator draws `n ~ Poisson(lam)` and `y ~ Binomial(n, p)` with `n`
latent, and its marginal likelihood is Poisson with rate `lam*p`. -/

/-- Poisson probability mass at count `n` for rate `lam`. -/
noncomputable def poissonPMF (lam : ℝ) (n : ℕ) : ℝ :=
  Real.exp (-lam) * lam ^ n / n.factorial

/-- Binomial probability mass at `y` successes out of `n` trials with success
probability `p` (zero when `y > n`). -/
noncomputable def binomialPMF (n : ℕ) (p : ℝ) (y : ℕ) : ℝ :=
  if y ≤ n then n.choose y * p ^ y * (1 - p) ^ (n - y) else 0

/-- Modelled from the spec: the marginal probability mass of the observed
count `y` under the Pogit generator, summing the latent `n` out. -/
noncomputable def pogitMarginalPMF (p lam : ℝ) (y : ℕ) : ℝ :=
  tsum (fun n : ℕ => poissonPMF lam n * binomialPMF n p y)

/-- Poisson negative log-likelihood `mu - y*log(mu)` (spec 4.5; the additive
constant `log y!` is dropped there). -/
noncomputable def poisson_nll (mu : ℝ) (y : ℕ) : ℝ := mu - y * Real.log mu

/-- Pogit negative log-likelihood: minus the log of the marginal mass. -/
noncomputable def pogit_nll (p lam : ℝ) (y : ℕ) : ℝ :=
  -Real.log (pogitMarginalPMF p lam y)

lemma pogit_term_eq (p lam : ℝ) (y k : ℕ) :
    poissonPMF lam (y + k) * binomialPMF (y + k) p y
      = (Real.exp (-lam) * p ^ y * lam ^ y / y.factorial)
        * ((lam * (1 - p)) ^ k / k.factorial) := by
  have hch : ((y + k).choose y : ℝ) * (y.factorial : ℝ) * (k.factorial : ℝ)
      = ((y + k).factorial : ℝ) := by
    have h := Nat.choose_mul_factorial_mul_factorial (Nat.le_add_right y k)
    rw [Nat.add_sub_cancel_left] at h
    exact_mod_cast congrArg (Nat.cast (R := ℝ)) h
  have hy : (y.factorial : ℝ) ≠ 0 := Nat.cast_ne_zero.mpr y.factorial_ne_zero
  have hk : (k.factorial : ℝ) ≠ 0 := Nat.cast_ne_zero.mpr k.factorial_ne_zero
  have hyk : ((y + k).factorial : ℝ) ≠ 0 :=
    Nat.cast_ne_zero.mpr (y + k).factorial_ne_zero
  simp only [poissonPMF, binomialPMF, if_pos (Nat.le_add_right y k),
    Nat.add_sub_cancel_left, mul_pow]
  field_simp
  rw [← hch]
  ring

/-- Poisson thinning: the Pogit marginal of `y` is Poisson with rate `lam*p`. -/
lemma pogit_marginal_eq_poisson (p lam : ℝ) (y : ℕ) :
    pogitMarginalPMF p lam y = poissonPMF (lam * p) y := by
  have hinj : Function.Injective (fun k : ℕ => y + k) := add_right_injective y
  have hsupp : Function.support (fun n : ℕ => poissonPMF lam n * binomialPMF n p y)
      ⊆ Set.range (fun k : ℕ => y + k) := by
    intro n hn
    rcases le_or_lt y n with h | h
    · exact ⟨n - y, by show y + (n - y) = n; omega⟩
    · exact absurd (by simp [binomialPMF, if_neg (not_le.mpr h)]) hn
  have he : Real.exp (-lam) * Real.exp (lam * (1 - p)) = Real.exp (-(lam * p)) := by
    rw [← Real.exp_add]
    congr 1
    ring
  calc pogitMarginalPMF p lam y
      = tsum (fun k : ℕ => poissonPMF lam (y + k) * binomialPMF (y + k) p y) :=
        (hinj.tsum_eq hsupp).symm
    _ = tsum (fun k : ℕ => (Real.exp (-lam) * p ^ y * lam ^ y / y.factorial)
          * ((lam * (1 - p)) ^ k / k.factorial)) :=
        tsum_congr (fun k => pogit_term_eq p lam y k)
    _ = (Real.exp (-lam) * p ^ y * lam ^ y / y.factorial)
          * tsum (fun k : ℕ => (lam * (1 - p)) ^ k / k.factorial) := tsum_mul_left
    _ = (Real.exp (-lam) * p ^ y * lam ^ y / y.factorial)
          * Real.exp (lam * (1 - p)) := by
        rw [Real.exp_eq_exp_ℝ,
          (NormedSpace.expSeries_div_hasSum_exp ℝ (lam * (1 - p))).tsum_eq]
    _ = poissonPMF (lam * p) y := by
        rw [poissonPMF, ← he, mul_pow]
        ring

/-- **C1**: for every probability `p` in `(0,1)`, rate `lam > 0` and
observation `y : ℕ`, the marginal distribution of `y` under the Pogit
generator (`n ~ Poisson(lam)`, `y ~ Binomial(n, p)`) is Poisson with rate
`lam*p`, and the Pogit negative log-likelihood equals the Poisson negative
log-likelihood `lam*p - y*log(lam*p)` at rate `lam*p` up to the additive
constant `log y!`, which is independent of `p` and `lam`. -/
theorem pogit_likelihood_is_poisson_thinning (p lam : ℝ) (y : ℕ)
    (hp0 : 0 < p) (_hp1 : p < 1) (hlam : 0 < lam) :
    pogitMarginalPMF p lam y = poissonPMF (lam * p) y ∧
    pogit_nll p lam y = poisson_nll (lam * p) y + Real.log y.factorial := by
  refine ⟨pogit_marginal_eq_poisson p lam y, ?_⟩
  have hmu : 0 < lam * p := mul_pos hlam hp0
  have hpow : (0 : ℝ) < Real.exp (-(lam * p)) * (lam * p) ^ y := by positivity
  rw [pogit_nll, pogit_marginal_eq_poisson, poissonPMF, poisson_nll,
    Real.log_div hpow.ne' (Nat.cast_ne_zero.mpr y.factorial_ne_zero),
    Real.log_mul (Real.exp_ne_zero _) (by positivity), Real.log_exp,
    Real.log_pow]
  ring

/-- Witness for C1 at `p = 1/2`, `lam = 1`, `y = 0`. -/
theorem pogit_likelihood_is_poisson_thinning_witness :
    pogitMarginalPMF (1/2) 1 0 = poissonPMF (1 * (1/2)) 0 ∧
    pogit_nll (1/2) 1 0 = poisson_nll (1 * (1/2)) 0 + Real.log (Nat.factorial 0) :=
  pogit_likelihood_is_poisson_thinning (1/2) 1 0 (by norm_num) (by norm_num)
    (by norm_num)

end Underreporting.Pogit

namespace Underreporting.Pogit

/-! ## Zero-trial rows (Binomial and Pogit likelihoods)

Modelled from the spec: spec 4.5 gives the per-row Binomial negative
log-likelihood `-(y*log(p) + (n-y)*log(1-p))` for `n` trials; the scores and
Hessian terms below are its exact first and second derivatives in `p`, and
the Pogit scores are the partial derivatives of the closed-form Pogit nll
`lam*p - y*log(lam*p)` in `p` and `lam` (proved as lemmas below). -/

/-- Binomial negative log-likelihood of `y` successes in `n` trials. -/
noncomputable def binomial_nll (n y : ℕ) (p : ℝ) : ℝ :=
  -((y : ℝ) * Real.log p + ((n : ℝ) - y) * Real.log (1 - p))

/-- Per-row Binomial score: derivative of `binomial_nll` in `p`. -/
noncomputable def binomial_score (n y : ℕ) (p : ℝ) : ℝ :=
  -((y : ℝ) / p - ((n : ℝ) - y) / (1 - p))

/-- Per-row Binomial Hessian term: second derivative of `binomial_nll` in `p`. -/
noncomputable def binomial_hess (n y : ℕ) (p : ℝ) : ℝ :=
  (y : ℝ) / p ^ 2 + ((n : ℝ) - y) / (1 - p) ^ 2

/-- Pogit per-row score in `p`: derivative of `lam*p - y*log(lam*p)`. -/
noncomputable def pogit_score_p (p lam : ℝ) (y : ℕ) : ℝ := lam - (y : ℝ) / p

/-- Pogit per-row score in `lam`: derivative of `lam*p - y*log(lam*p)`. -/
noncomputable def pogit_score_lam (p lam : ℝ) (y : ℕ) : ℝ := p - (y : ℝ) / lam

/-- Pogit per-row Hessian entry in `(p, p)`: second derivative of the
closed-form Pogit nll `lam*p - y*log(lam*p)` in `p`. -/
noncomputable def pogit_hess_pp (p _lam : ℝ) (y : ℕ) : ℝ := (y : ℝ) / p ^ 2

/-- Pogit per-row Hessian entry in `(lam, lam)`: second derivative of the
closed-form Pogit nll in `lam`. -/
noncomputable def pogit_hess_lamlam (_p lam : ℝ) (y : ℕ) : ℝ := (y : ℝ) / lam ^ 2

/-- Pogit per-row mixed Hessian entry: derivative of the score in `p` with
respect to `lam` (constant 1, from the `lam*p` term). -/
def pogit_hess_plam (_p _lam : ℝ) (_y : ℕ) : ℝ := 1

/-- `binomial_score` is the exact derivative of `binomial_nll` on `(0,1)`. -/
lemma hasDerivAt_binomial_nll (n y : ℕ) (p : ℝ) (h0 : 0 < p) (h1 : p < 1) :
    HasDerivAt (binomial_nll n y) (binomial_score n y p) p := by
  have hlog : HasDerivAt Real.log p⁻¹ p := Real.hasDerivAt_log h0.ne'
  have hone : HasDerivAt (fun q : ℝ => 1 - q) (-1) p := by
    simpa using (hasDerivAt_const p (1 : ℝ)).sub (hasDerivAt_id p)
  have hlog1 : HasDerivAt (fun q : ℝ => Real.log (1 - q)) ((1 - p)⁻¹ * -1) p :=
    (Real.hasDerivAt_log (by linarith)).comp p hone
  have h := (((hlog.const_mul (y : ℝ)).add
      (hlog1.const_mul ((n : ℝ) - y))).neg)
  convert h using 1
  rw [binomial_score]
  field_simp
  ring

/-- `binomial_hess` is the exact derivative of `binomial_score` on `(0,1)`. -/
lemma hasDerivAt_binomial_score (n y : ℕ) (p : ℝ) (h0 : 0 < p) (h1 : p < 1) :
    HasDerivAt (binomial_score n y) (binomial_hess n y p) p := by
  have hinv : HasDerivAt (fun q : ℝ => q⁻¹) (-(p ^ 2)⁻¹) p := by
    simpa using hasDerivAt_inv h0.ne'
  have hone : HasDerivAt (fun q : ℝ => 1 - q) (-1) p := by
    simpa using (hasDerivAt_const p (1 : ℝ)).sub (hasDerivAt_id p)
  have hinv1 : HasDerivAt (fun q : ℝ => (1 - q)⁻¹) (-((1 - p) ^ 2)⁻¹ * -1) p :=
    (hasDerivAt_inv (by linarith : (1 : ℝ) - p ≠ 0)).comp p hone
  have h := (((hinv.const_mul (y : ℝ)).sub
      (hinv1.const_mul ((n : ℝ) - y))).neg)
  have heq : ∀ q : ℝ, binomial_score n y q
      = -((y : ℝ) * q⁻¹ - ((n : ℝ) - y) * (1 - q)⁻¹) := by
    intro q
    rw [binomial_score]
    ring
  rw [funext heq]
  convert h using 1
  rw [binomial_hess]
  field_simp
  ring

/-- `pogit_score_p` is the exact partial derivative of the closed-form Pogit
nll in `p`, at `p, lam > 0`. -/
lemma hasDerivAt_pogit_nll_p (p lam : ℝ) (y : ℕ) (hp : 0 < p) (hlam : 0 < lam) :
    HasDerivAt (fun q : ℝ => lam * q - (y : ℝ) * Real.log (lam * q))
      (pogit_score_p p lam y) p := by
  have hmul : HasDerivAt (fun q : ℝ => lam * q) lam p := by
    simpa using (hasDerivAt_id p).const_mul lam
  have hlog : HasDerivAt (fun q : ℝ => Real.log (lam * q)) ((lam * p)⁻¹ * lam) p :=
    (Real.hasDerivAt_log (by positivity)).comp p hmul
  have h := hmul.sub (hlog.const_mul (y : ℝ))
  convert h using 1
  rw [pogit_score_p]
  field_simp
  ring

/-- `pogit_score_lam` is the exact partial derivative of the closed-form Pogit
nll in `lam`, at `p, lam > 0`. -/
lemma hasDerivAt_pogit_nll_lam (p lam : ℝ) (y : ℕ) (hp : 0 < p) (hlam : 0 < lam) :
    HasDerivAt (fun l : ℝ => l * p - (y : ℝ) * Real.log (l * p))
      (pogit_score_lam p lam y) lam := by
  have hmul : HasDerivAt (fun l : ℝ => l * p) p lam := by
    simpa using (hasDerivAt_id lam).mul_const p
  have hlog : HasDerivAt (fun l : ℝ => Real.log (l * p)) ((lam * p)⁻¹ * p) lam :=
    (Real.hasDerivAt_log (by positivity)).comp lam hmul
  have h := hmul.sub (hlog.const_mul (y : ℝ))
  convert h using 1
  rw [pogit_score_lam]
  field_simp
  ring

/-- `pogit_hess_pp` is the exact derivative of `pogit_score_p` in `p`. -/
lemma hasDerivAt_pogit_score_p (p lam : ℝ) (y : ℕ) (hp : p ≠ 0) :
    HasDerivAt (fun q : ℝ => pogit_score_p q lam y) (pogit_hess_pp p lam y) p := by
  have hinv : HasDerivAt (fun q : ℝ => q⁻¹) (-(p ^ 2)⁻¹) p := by
    simpa using hasDerivAt_inv hp
  have h := (hasDerivAt_const p lam).sub (hinv.const_mul (y : ℝ))
  have heq : ∀ q : ℝ, pogit_score_p q lam y = lam - (y : ℝ) * q⁻¹ := by
    intro q
    rw [pogit_score_p]
    ring
  rw [funext heq]
  convert h using 1
  rw [pogit_hess_pp]
  field_simp

/-- `pogit_hess_lamlam` is the exact derivative of `pogit_score_lam` in
`lam`. -/
lemma hasDerivAt_pogit_score_lam (p lam : ℝ) (y : ℕ) (hlam : lam ≠ 0) :
    HasDerivAt (fun l : ℝ => pogit_score_lam p l y) (pogit_hess_lamlam p lam y) lam := by
  have hinv : HasDerivAt (fun l : ℝ => l⁻¹) (-(lam ^ 2)⁻¹) lam := by
    simpa using hasDerivAt_inv hlam
  have h := (hasDerivAt_const lam p).sub (hinv.const_mul (y : ℝ))
  have heq : ∀ l : ℝ, pogit_score_lam p l y = p - (y : ℝ) * l⁻¹ := by
    intro l
    rw [pogit_score_lam]
    ring
  rw [funext heq]
  convert h using 1
  rw [pogit_hess_lamlam]
  field_simp

/-- `pogit_hess_plam` is the exact derivative of `pogit_score_p` in `lam`. -/
lemma hasDerivAt_pogit_score_p_in_lam (p lam : ℝ) (y : ℕ) :
    HasDerivAt (fun l : ℝ => pogit_score_p p l y) (pogit_hess_plam p lam y) lam := by
  have h := (hasDerivAt_id lam).sub (hasDerivAt_const lam ((y : ℝ) / p))
  simpa [pogit_score_p, pogit_hess_plam] using h

/-- **C7 counterexample**: the claim fails on a Pogit row with zero trials
(`n = 0`, hence `y = 0`): at `p = 1/2`, `lam = 1` the Pogit score in `lam` is
`1/2`, not zero, so the score contribution of such a row is not zero. -/
theorem pogit_zero_trials_score_ne_zero : pogit_score_lam (1/2) 1 0 ≠ 0 := by
  rw [pogit_score_lam]
  norm_num

/-- **C7 amended**: a zero-trial row (`n = 0`, hence `y = 0`) is a
zero-information row for the Binomial likelihood -- nll, score and Hessian
term all evaluate to exactly `0` for every `p`, so they are finite and no
domain error arises; for the Pogit likelihood the nll, the scores in `p` and
`lam`, and the Hessian entries of such a row likewise evaluate to the finite
values `lam*p`, `lam`, `p`, `0`, `0` and `1` (no NaN or Inf, no domain
error), but the Pogit score contribution is not zero in general. -/
theorem zero_trials_zero_information (p lam : ℝ) :
    binomial_nll 0 0 p = 0 ∧ binomial_score 0 0 p = 0 ∧ binomial_hess 0 0 p = 0 ∧
    pogit_nll p lam 0 = lam * p ∧ pogit_score_p p lam 0 = lam ∧
    pogit_score_lam p lam 0 = p ∧ pogit_hess_pp p lam 0 = 0 ∧
    pogit_hess_lamlam p lam 0 = 0 ∧ pogit_hess_plam p lam 0 = 1 := by
  refine ⟨by simp [binomial_nll], by simp [binomial_score],
    by simp [binomial_hess], ?_, by simp [pogit_score_p],
    by simp [pogit_score_lam], by simp [pogit_hess_pp],
    by simp [pogit_hess_lamlam], by simp [pogit_hess_plam]⟩
  rw [pogit_nll, pogit_marginal_eq_poisson, poissonPMF]
  simp [Real.log_exp]

end Underreporting.Pogit

namespace Underreporting.Priors

/-! ## Gaussian priors (Prior/Constraint layer)

Modelled from the spec: the `regmod` Gaussian priors are missing from the
sources.  Spec 4.3: a Gaussian prior on a linear functional of the
coefficients "contributes `0.5 * ((functional(coef) - mean) / sd)^2` summed
over functional outputs to the objective". -/

/-- The penalized objective fit by the optimizer when a Gaussian prior with
mean `m` and standard deviation `sd` is attached to the functional `g` of the
coefficient vector: base negative log-likelihood `f` plus the quadratic
penalty. -/
noncomputable def penalizedObj {α : Type} (f g : α → ℝ) (m sd : ℝ) (c : α) : ℝ :=
  f c + 0.5 * ((g c - m) / sd) ^ 2

/-- **C5**: fitting the same model and data twice with a Gaussian prior on a
coefficient functional `g`, with standard deviations `sd1 > sd2 > 0` (a
decreasing sequence) and all other inputs identical, pulls the fitted
functional value toward the prior mean monotonically: if `c1` minimizes the
`sd1`-penalized objective and `c2` minimizes the `sd2`-penalized objective,
the distance of `g` from the prior mean at `c2` is no larger than at `c1`,
the prior contributing `0.5*((g c - m)/sd)^2` to the objective. -/
theorem gaussian_prior_monotone_tightening {α : Type} (f g : α → ℝ)
    (m sd1 sd2 : ℝ) (c1 c2 : α) (hsd2 : 0 < sd2) (hlt : sd2 < sd1)
    (hmin1 : ∀ c, penalizedObj f g m sd1 c1 ≤ penalizedObj f g m sd1 c)
    (hmin2 : ∀ c, penalizedObj f g m sd2 c2 ≤ penalizedObj f g m sd2 c) :
    |g c2 - m| ≤ |g c1 - m| := by
  have hsd1 : 0 < sd1 := hsd2.trans hlt
  have h12 := hmin1 c2
  have h21 := hmin2 c1
  rw [penalizedObj, penalizedObj, div_pow, div_pow] at h12 h21
  set d1 := (g c1 - m) ^ 2 with hd1
  set d2 := (g c2 - m) ^ 2 with hd2
  have hwlt : 0.5 / sd1 ^ 2 < 0.5 / sd2 ^ 2 := by
    apply div_lt_div_of_pos_left (by norm_num) (by positivity)
    exact pow_lt_pow_left₀ hlt hsd2.le two_ne_zero
  have hsum : (0.5 / sd2 ^ 2 - 0.5 / sd1 ^ 2) * (d2 - d1) ≤ 0 := by
    have h := add_le_add h12 h21
    ring_nf
    ring_nf at h
    linarith
  have hd : d2 ≤ d1 := by nlinarith [hsum, hwlt]
  calc |g c2 - m| = Real.sqrt d2 := by rw [hd2, Real.sqrt_sq_eq_abs]
    _ ≤ Real.sqrt d1 := Real.sqrt_le_sqrt hd
    _ = |g c1 - m| := by rw [hd1, Real.sqrt_sq_eq_abs]

/-- Witness for C5: zero base objective on `ℝ` with the identity functional
and prior mean 0; the minimizer of each penalized objective is 0. -/
theorem gaussian_prior_monotone_tightening_witness :
    |(id (0 : ℝ) : ℝ) - 0| ≤ |(id (0 : ℝ) : ℝ) - 0| := by
  refine gaussian_prior_monotone_tightening (fun _ => 0) id 0 2 1 0 0
    (by norm_num) (by norm_num) ?_ ?_ <;>
    · intro c
      rw [penalizedObj, penalizedObj]
      simp only [id_eq, sub_zero, zero_add]
      norm_num
      positivity

end Underreporting.Priors

namespace Underreporting.Priors

/-! ## Uniform priors as hard linear constraints (Prior/Constraint layer)

Modelled from the spec: the `SplineUniformPrior` of `regmod` and the
constraint handling of the optimizer are missing from the sources.  Spec 4.3: a Uniform prior
"emits one linear inequality row pair (lb ≤ row·coef ≤ ub) per functional
output, consumed by the optimizer as explicit linear constraints -- never as
penalty terms"; a domain-restricted spline prior discretizes
`[domain_lb, domain_ub]` into `size` evenly spaced points and evaluates the
derivative-order basis matrix there. -/

/-- The `size` evenly spaced grid points over `[dlb, dub]` (as produced by
`np.linspace`): point `j` is `dlb + (dub - dlb) * j / (size - 1)`. -/
noncomputable def priorGrid (dlb dub : ℝ) (size : ℕ) (j : ℕ) : ℝ :=
  dlb + (dub - dlb) * j / ((size : ℝ) - 1)

/-- Row `j` of the functional matrix emitted by a `SplineUniformPrior` of
derivative order 2: the order-2 derivative of basis function `i` of the
spline variable, evaluated at grid point `j`.  The basis family `basisD2` is
abstract, supplied by the spline layer. -/
noncomputable def constraintRow (basisD2 : ℕ → ℝ → ℝ) (dlb dub : ℝ)
    (size : ℕ) (j i : ℕ) : ℝ :=
  basisD2 i (priorGrid dlb dub size j)

/-- The second derivative of the fitted spline with coefficients `c` over
`nb` basis functions, at `t`: the same linear combination of the basis
functions of the second derivatives that the design-matrix builder of the
variable uses. -/
noncomputable def fittedSplineD2 (nb : ℕ) (basisD2 : ℕ → ℝ → ℝ) (c : ℕ → ℝ)
    (t : ℝ) : ℝ :=
  ∑ i ∈ Finset.range nb, c i * basisD2 i t

/-- The linear inequality system the optimizer receives from a Uniform prior
with bounds `lb ≤ row·coef ≤ ub` (bounds in the extended reals, `ub = ⊤`
encoding `np.inf`): coefficient vector `c` is feasible when every one of the
`size` rows satisfies its bound pair. -/
def uniformConstraintsHold (lb ub : EReal) (nb : ℕ) (basisD2 : ℕ → ℝ → ℝ)
    (dlb dub : ℝ) (size : ℕ) (c : ℕ → ℝ) : Prop :=
  ∀ j < size,
    lb ≤ ((∑ i ∈ Finset.range nb, constraintRow basisD2 dlb dub size j i * c i : ℝ) : EReal) ∧
    ((∑ i ∈ Finset.range nb, constraintRow basisD2 dlb dub size j i * c i : ℝ) : EReal) ≤ ub

/-- **C3**: a `SplineUniformPrior` with `lb = 0`, `ub = inf` and `order = 2`
is emitted as hard linear inequality constraints, one row per grid point,
never as a penalty term; hence any coefficient vector the optimizer returns
-- which must satisfy the constraint system -- yields a fitted spline whose
second derivative is `≥ 0` at each of the `size` evenly spaced grid points
discretizing `[dlb, dub]`. -/
theorem spline_uniform_prior_forces_convexity (nb : ℕ) (basisD2 : ℕ → ℝ → ℝ)
    (dlb dub : ℝ) (size : ℕ) (c : ℕ → ℝ)
    (hc : uniformConstraintsHold 0 ⊤ nb basisD2 dlb dub size c) :
    ∀ j < size, 0 ≤ fittedSplineD2 nb basisD2 c (priorGrid dlb dub size j) := by
  intro j hj
  have h := (hc j hj).1
  rw [show ((0 : EReal) = ((0 : ℝ) : EReal)) from rfl, EReal.coe_le_coe_iff] at h
  calc (0 : ℝ) ≤ ∑ i ∈ Finset.range nb, constraintRow basisD2 dlb dub size j i * c i := h
    _ = fittedSplineD2 nb basisD2 c (priorGrid dlb dub size j) := by
        rw [fittedSplineD2]
        exact Finset.sum_congr rfl (fun i _ => mul_comm _ _)

/-- Witness for C3: one constant basis function with second derivative 1,
coefficient 1, two grid points on `[0, 1]`, checked at grid point 0. -/
theorem spline_uniform_prior_forces_convexity_witness :
    0 ≤ fittedSplineD2 1 (fun _ _ => 1) (fun _ => 1) (priorGrid 0 1 2 0) := by
  refine spline_uniform_prior_forces_convexity 1 (fun _ _ => 1) 0 1 2 (fun _ => 1)
    ?_ 0 (by norm_num)
  intro j hj
  constructor
  · rw [show ((0 : EReal) = ((0 : ℝ) : EReal)) from rfl, EReal.coe_le_coe_iff]
    simp [constraintRow]
  · exact le_top

end Underreporting.Priors

namespace Underreporting.Sandwich

open Matrix

/-! ## Sandwich covariance (Optimizer Driver)

Modelled from the spec: the covariance computation of the `regmod` optimizer is
missing from the sources.  Spec 4.6: on convergence the driver returns
"`cov = H⁻¹ · (sum of outer products of per-observation score vectors) · H⁻¹`,
where H is the Hessian at the optimum". -/

variable {n : Type} [Fintype n] [DecidableEq n]

/-- The middle of the sandwich: the sum of the outer products `g·gᵀ` of the
per-observation score vectors. -/
def scoreOuterSum (scores : List (n → ℝ)) : Matrix n n ℝ :=
  (scores.map (fun g => Matrix.vecMulVec g g)).sum

/-- The sandwich covariance estimate `H⁻¹ * S * H⁻¹` returned by a successful
fit. -/
noncomputable def sandwichCov (H : Matrix n n ℝ) (scores : List (n → ℝ)) :
    Matrix n n ℝ :=
  H⁻¹ * scoreOuterSum scores * H⁻¹

omit [DecidableEq n] in
lemma scoreOuterSum_posSemidef (scores : List (n → ℝ)) :
    (scoreOuterSum scores).PosSemidef := by
  induction scores with
  | nil => exact Matrix.PosSemidef.zero
  | cons g gs ih =>
      have hg : (Matrix.vecMulVec g g).PosSemidef := by
        have h := Matrix.posSemidef_self_mul_conjTranspose (Matrix.col Unit g)
        have heq : Matrix.col Unit g * (Matrix.col Unit g)ᴴ = Matrix.vecMulVec g g := by
          rw [Matrix.conjTranspose_col, Matrix.vecMulVec_eq Unit, star_trivial]
        rwa [heq] at h
      simpa [scoreOuterSum] using hg.add ih

/-- **C4**: for every successful fit, the returned covariance matrix is the
sandwich estimator `H⁻¹ * S * H⁻¹` (with `H` the symmetric Hessian of the
objective at the optimum and `S` the sum of outer products of the
per-observation score vectors), and this matrix is symmetric and positive
semidefinite -- in exact arithmetic its eigenvalues are all `≥ 0`, hence
`≥ -ε` for every tolerance `ε ≥ 0`. -/
theorem sandwich_cov_symm_posSemidef (H : Matrix n n ℝ)
    (scores : List (n → ℝ)) (hH : H.IsHermitian) :
    (sandwichCov H scores)ᵀ = sandwichCov H scores ∧
    (sandwichCov H scores).PosSemidef := by
  have hinv : (H⁻¹)ᴴ = H⁻¹ := hH.inv
  have hpsd : (sandwichCov H scores).PosSemidef := by
    have h := (scoreOuterSum_posSemidef scores).mul_mul_conjTranspose_same H⁻¹
    rw [hinv] at h
    rwa [sandwichCov]
  refine ⟨?_, hpsd⟩
  rw [← Matrix.conjTranspose_eq_transpose_of_trivial]
  exact hpsd.1

/-- Witness for C4: the identity Hessian on one coefficient with a single
unit score vector. -/
theorem sandwich_cov_symm_posSemidef_witness :
    (sandwichCov (1 : Matrix (Fin 1) (Fin 1) ℝ) [fun _ => 1])ᵀ
        = sandwichCov (1 : Matrix (Fin 1) (Fin 1) ℝ) [fun _ => 1] ∧
    (sandwichCov (1 : Matrix (Fin 1) (Fin 1) ℝ) [fun _ => 1]).PosSemidef :=
  sandwich_cov_symm_posSemidef 1 [fun _ => 1] Matrix.isHermitian_one

end Underreporting.Sandwich

namespace Underreporting.Spline

/-! ## Spline basis layer: partition of unity

Modelled from the spec: the `xspline` basis layer is missing from the
sources.  The order-0 (value) basis of a spline specification with strictly
increasing knots `t` and degree `d` is the Cox-de Boor B-spline family; the
row of the design matrix at an evaluation point `x` is the vector of all
basis functions evaluated at `x`. -/

variable {K : Type} [LinearOrderedField K]

/-- Cox-de Boor B-spline basis function of degree `d`, index `i`, over the
knot sequence `t`, at `x`.  A term whose knot denominator vanishes drops out
(encoded by the `x / 0 = 0` convention). -/
def bspline (t : ℤ → K) : ℕ → ℤ → K → K
  | 0, i, x => if t i ≤ x ∧ x < t (i + 1) then 1 else 0
  | d + 1, i, x =>
      (x - t i) / (t (i + d + 1) - t i) * bspline t d i x +
      (t (i + d + 2) - x) / (t (i + d + 2) - t (i + 1)) * bspline t d (i + 1) x

/-- A degree-`d` B-spline vanishes outside `[t i, t (i + d + 1))`. -/
lemma bspline_support (t : ℤ → K) (ht : Monotone t) :
    ∀ (d : ℕ) (i : ℤ) (x : K), bspline t d i x ≠ 0 →
      t i ≤ x ∧ x < t (i + d + 1) := by
  intro d
  induction d with
  | zero =>
      intro i x h
      simp only [bspline] at h
      by_cases hc : t i ≤ x ∧ x < t (i + 1)
      · have : (i + (0 : ℕ) + 1 : ℤ) = i + 1 := by push_cast; ring
        rw [this]
        exact hc
      · rw [if_neg hc] at h
        exact absurd rfl h
  | succ d ih =>
      intro i x h
      simp only [bspline] at h
      have hor : (x - t i) / (t (i + d + 1) - t i) * bspline t d i x ≠ 0 ∨
          (t (i + d + 2) - x) / (t (i + d + 2) - t (i + 1)) * bspline t d (i + 1) x ≠ 0 := by
        by_contra hc
        push_neg at hc
        rw [hc.1, hc.2, add_zero] at h
        exact h rfl
      have hidx : (i + (d + 1 : ℕ) + 1 : ℤ) = i + d + 2 := by push_cast; ring
      rw [hidx]
      rcases hor with h1 | h2
      · have hb := ih i x (fun hz => h1 (by rw [hz, mul_zero]))
        exact ⟨hb.1, lt_of_lt_of_le hb.2 (ht (by omega))⟩
      · have hb := ih (i + 1) x (fun hz => h2 (by rw [hz, mul_zero]))
        have hb2 := hb.2
        have hidx2 : (i + 1 + d + 1 : ℤ) = i + d + 2 := by ring
        rw [hidx2] at hb2
        exact ⟨le_trans (ht (by omega)) hb.1, hb2⟩

/-- On the knot interval `[t j, t (j + 1))` the `d + 1` B-splines of degree
`d` that are supported there sum to one. -/
lemma bspline_sum_Icc (t : ℤ → K) (ht : StrictMono t) :
    ∀ (d : ℕ) (j : ℤ) (x : K), t j ≤ x → x < t (j + 1) →
      ∑ i ∈ Finset.Icc (j - d) j, bspline t d i x = 1 := by
  intro d
  induction d with
  | zero =>
      intro j x hx1 hx2
      have h0 : (j - (0 : ℕ) : ℤ) = j := by push_cast; ring
      rw [h0, Finset.Icc_self, Finset.sum_singleton]
      simp only [bspline]
      exact if_pos ⟨hx1, hx2⟩
  | succ d ih =>
      intro j x hx1 hx2
      have hlo : (j - (d + 1 : ℕ) : ℤ) = j - d - 1 := by push_cast; ring
      rw [hlo]
      have key : ∀ i : ℤ, bspline t (d + 1) i x =
          (x - t i) / (t (i + d + 1) - t i) * bspline t d i x +
          (t (i + d + 2) - x) / (t (i + d + 2) - t (i + 1)) * bspline t d (i + 1) x := by
        intro i
        simp only [bspline]
      have hsplit :
          ∑ i ∈ Finset.Icc (j - d - 1 : ℤ) j, bspline t (d + 1) i x =
          (∑ i ∈ Finset.Icc (j - d - 1 : ℤ) j,
            (x - t i) / (t (i + d + 1) - t i) * bspline t d i x) +
          (∑ i ∈ Finset.Icc (j - d - 1 : ℤ) j,
            (t (i + d + 2) - x) / (t (i + d + 2) - t (i + 1)) * bspline t d (i + 1) x) := by
        rw [← Finset.sum_add_distrib]
        exact Finset.sum_congr rfl (fun i _ => key i)
      -- first sum: the term at i = j - d - 1 vanishes
      have hAzero : ∀ i ∈ Finset.Icc (j - d - 1 : ℤ) j, i ∉ Finset.Icc (j - d : ℤ) j →
          (x - t i) / (t (i + d + 1) - t i) * bspline t d i x = 0 := by
        intro i hi hni
        have hieq : i = j - d - 1 := by
          simp only [Finset.mem_Icc] at hi hni
          omega
        have hz : bspline t d i x = 0 := by
          by_contra hnz
          have hb := (bspline_support t ht.monotone d i x hnz).2
          have : (i + d + 1 : ℤ) = j := by rw [hieq]; ring
          rw [this] at hb
          exact absurd hx1 (not_le.mpr hb)
        rw [hz, mul_zero]
      have hA : ∑ i ∈ Finset.Icc (j - d - 1 : ℤ) j,
            (x - t i) / (t (i + d + 1) - t i) * bspline t d i x
          = ∑ i ∈ Finset.Icc (j - d : ℤ) j,
            (x - t i) / (t (i + d + 1) - t i) * bspline t d i x :=
        (Finset.sum_subset (Finset.Icc_subset_Icc (by omega) le_rfl) hAzero).symm
      -- second sum: shift the index by one
      have hBshift : ∑ i ∈ Finset.Icc (j - d - 1 : ℤ) j,
            (t (i + d + 2) - x) / (t (i + d + 2) - t (i + 1)) * bspline t d (i + 1) x
          = ∑ i ∈ Finset.Icc (j - d : ℤ) (j + 1),
            (t (i + d + 1) - x) / (t (i + d + 1) - t i) * bspline t d i x := by
        rw [show (Finset.Icc (j - d : ℤ) (j + 1)) =
            (Finset.Icc (j - d - 1 : ℤ) j).map (addRightEmbedding 1) from ?_]
        · rw [Finset.sum_map]
          refine Finset.sum_congr rfl (fun i _ => ?_)
          have h1 : (addRightEmbedding (1 : ℤ)) i + d + 1 = i + d + 2 := by
            simp [addRightEmbedding]
            ring
          have h2 : (addRightEmbedding (1 : ℤ)) i = i + 1 := rfl
          rw [h1, h2]
        · rw [Finset.map_add_right_Icc]
          congr 1
          ring
      -- drop the i = j + 1 term of the shifted sum
      have hCzero : ∀ i ∈ Finset.Icc (j - d : ℤ) (j + 1), i ∉ Finset.Icc (j - d : ℤ) j →
          (t (i + d + 1) - x) / (t (i + d + 1) - t i) * bspline t d i x = 0 := by
        intro i hi hni
        have hieq : i = j + 1 := by
          simp only [Finset.mem_Icc] at hi hni
          omega
        have hz : bspline t d i x = 0 := by
          by_contra hnz
          have hb := (bspline_support t ht.monotone d i x hnz).1
          rw [hieq] at hb
          exact absurd hx2 (not_lt.mpr hb)
        rw [hz, mul_zero]
      have hB : ∑ i ∈ Finset.Icc (j - d : ℤ) (j + 1),
            (t (i + d + 1) - x) / (t (i + d + 1) - t i) * bspline t d i x
          = ∑ i ∈ Finset.Icc (j - d : ℤ) j,
            (t (i + d + 1) - x) / (t (i + d + 1) - t i) * bspline t d i x :=
        (Finset.sum_subset (Finset.Icc_subset_Icc le_rfl (by omega)) hCzero).symm
      -- collect the two coefficients of each remaining B-spline
      have hcoef : ∀ i : ℤ,
          (x - t i) / (t (i + d + 1) - t i) * bspline t d i x +
          (t (i + d + 1) - x) / (t (i + d + 1) - t i) * bspline t d i x
          = bspline t d i x := by
        intro i
        have hne : t (i + d + 1) - t i ≠ 0 :=
          sub_ne_zero.mpr (ne_of_gt (ht (by omega)))
        field_simp
        ring
      rw [hsplit, hA, hBshift, hB, ← Finset.sum_add_distrib]
      rw [Finset.sum_congr rfl (fun i _ => hcoef i)]
      exact ih j x hx1 hx2

/-- **C6**: for every valid spline specification (strictly increasing knots,
non-negative degree) and every evaluation point in the domain, the row of the
order-0 (value) design matrix sums to 1: over any index window containing the
`d + 1` basis functions supported on the knot interval of the point, the basis
values at the point sum to exactly one (partition of unity). -/
theorem bspline_partition_of_unity (t : ℤ → K) (ht : StrictMono t) (d : ℕ)
    (x : K) (j : ℤ) (hx1 : t j ≤ x) (hx2 : x < t (j + 1))
    (s : Finset ℤ) (hs : Finset.Icc (j - d) j ⊆ s) :
    ∑ i ∈ s, bspline t d i x = 1 := by
  rw [← Finset.sum_subset hs (fun i _ hni => ?_)]
  · exact bspline_sum_Icc t ht d j x hx1 hx2
  · by_contra hne
    obtain ⟨h1, h2⟩ := bspline_support t ht.monotone d i x hne
    simp only [Finset.mem_Icc] at hni
    have hor : i < j - d ∨ j < i := by omega
    rcases hor with hlt | hgt
    · exact absurd hx1 (not_le.mpr (lt_of_lt_of_le h2 (ht.monotone (by omega))))
    · exact absurd h1 (not_le.mpr (lt_of_lt_of_le hx2 (ht.monotone (by omega))))

/-- Witness for C6: integer knots over `ℚ`, degree 1, evaluation point `1/2`. -/
theorem bspline_partition_of_unity_witness :
    ∑ i ∈ Finset.Icc (-1 : ℤ) 0, bspline (fun i => (i : ℚ)) 1 i (1/2) = 1 :=
  bspline_partition_of_unity (fun i => (i : ℚ))
    (fun a b h => by show (a : ℚ) < (b : ℚ); exact_mod_cast h) 1 (1/2) 0
    (by norm_num) (by norm_num)
    (Finset.Icc (-1 : ℤ) 0) (by norm_num)

end Underreporting.Spline

namespace Underreporting.Pops

/-! ## Population aggregation (src/data/manipulate_pops.R)

Embedded from the source.  The script reads the GBD population CSVs, keeps
`location_id == 102`, keeps `sex_name` in `{"male", "female"}`, merges with
the `age_df` table mapping `age_group_id` to an `(age_start, age_end)` bin
(an inner join: unmapped age groups drop out), sums `val` grouped by
`(age_start, age_end, sex, location_name, location_id, year_id)`, keeps
`year_id >= 1990`, renames and writes `pops.csv`. -/

/-- An input row of the population CSVs, with the columns the script uses. -/
structure PopRow where
  location_id : ℤ
  location_name : String
  sex_name : String
  age_group_id : ℕ
  year_id : ℤ
  val : ℚ
deriving DecidableEq

/-- A row of the aggregated table written to `pops.csv`. -/
structure OutRow where
  age_start : ℚ
  age_end : ℚ
  sex : String
  location_name : String
  location_id : ℤ
  year : ℤ
  population : ℚ
deriving DecidableEq

/-- The grouping key of the aggregation step. -/
structure GroupKey where
  age_start : ℚ
  age_end : ℚ
  sex : String
  location_name : String
  location_id : ℤ
  year_id : ℤ
deriving DecidableEq

/-- `ages <- c(2:20, 30:32, 235)`. -/
def ages : List ℕ :=
  [2, 3, 4, 5, 6, 7, 8, 9, 10, 11, 12, 13, 14, 15, 16, 17, 18, 19, 20,
    30, 31, 32, 235]

/-- `age_start <- c(rep(0.00, 3), 1, seq(5, 80, by=5), rep(085, 3))`. -/
def age_start_vals : List ℚ :=
  [0, 0, 0, 1, 5, 10, 15, 20, 25, 30, 35, 40, 45, 50, 55, 60, 65, 70, 75, 80,
    85, 85, 85]

/-- `age_end <- c(rep(0.99, 3), 4, seq(9, 84, by=5), rep(124, 3))`. -/
def age_end_vals : List ℚ :=
  [99/100, 99/100, 99/100, 4, 9, 14, 19, 24, 29, 34, 39, 44, 49, 54, 59, 64,
    69, 74, 79, 84, 124, 124, 124]

/-- The `age_df` table: `age_group_id` zipped with its `(age_start, age_end)`. -/
def age_df : List (ℕ × ℚ × ℚ) := ages.zip (age_start_vals.zip age_end_vals)

/-- The age bin for an `age_group_id` under the `age_df` merge (the id is
unique in `age_df`, so the inner join is a lookup; `none` means the row drops
out of the join). -/
def ageLookup (g : ℕ) : Option (ℚ × ℚ) :=
  (age_df.find? (fun e => decide (e.1 = g))).map (fun e => e.2)

/-- The grouping key of a merged row. -/
def rowKey (r : PopRow) (ab : ℚ × ℚ) : GroupKey :=
  ⟨ab.1, ab.2, r.sex_name, r.location_name, r.location_id, r.year_id⟩

/-- The location filter, the sex filter, and the `age_df` merge: the list of
surviving rows together with their age bins. -/
def mergedRows (input : List PopRow) : List (PopRow × ℚ × ℚ) :=
  (((input.filter (fun r => decide (r.location_id = 102))).filter
      (fun r => decide (r.sex_name = "male") || decide (r.sex_name = "female"))).filterMap
    (fun r => (ageLookup r.age_group_id).map (fun ab => (r, ab))))

/-- The distinct grouping keys, in order of first appearance. -/
def groupKeys (input : List PopRow) : List GroupKey :=
  ((mergedRows input).map (fun e => rowKey e.1 e.2)).dedup

/-- The aggregation step: per key, the sum of `val` over the rows of that key. -/
def aggRows (input : List PopRow) : List (GroupKey × ℚ) :=
  (groupKeys input).map (fun k =>
    (k, (((mergedRows input).filter (fun e => decide (rowKey e.1 e.2 = k))).map
      (fun e => e.1.val)).sum))

/-- `manipulate_pops.R`: the full pipeline producing the rows of `pops.csv`. -/
def manipulate_pops (input : List PopRow) : List OutRow :=
  ((aggRows input).filter (fun e => decide (1990 ≤ e.1.year_id))).map
    (fun e => ⟨e.1.age_start, e.1.age_end, e.1.sex, e.1.location_name,
      e.1.location_id, e.1.year_id, e.2⟩)

/-- The input rows contributing to the output row with grouping key `k`:
U.S.A. rows of the kept sexes whose `age_group_id` is mapped to the age bin of `k`
and whose sex, location and year match `k`. -/
def inputCond (k : GroupKey) (r : PopRow) : Bool :=
  (decide (r.location_id = 102) &&
    (decide (r.sex_name = "male") || decide (r.sex_name = "female"))) &&
  decide (ageLookup r.age_group_id = some (k.age_start, k.age_end)) &&
  decide (r.sex_name = k.sex) &&
  decide (r.location_name = k.location_name) &&
  decide (r.location_id = k.location_id) &&
  decide (r.year_id = k.year_id)

end Underreporting.Pops

namespace Underreporting.Pops

lemma mergedRows_cons (r : PopRow) (rest : List PopRow) :
    mergedRows (r :: rest) =
      (if (decide (r.location_id = 102) &&
          (decide (r.sex_name = "male") || decide (r.sex_name = "female"))) = true then
        ((ageLookup r.age_group_id).map (fun ab => (r, ab))).toList ++ mergedRows rest
      else mergedRows rest) := by
  rw [mergedRows, mergedRows, List.filter_cons]
  by_cases h1 : decide (r.location_id = 102) = true
  · rw [if_pos h1, List.filter_cons]
    by_cases h2 : (decide (r.sex_name = "male") || decide (r.sex_name = "female")) = true
    · rw [if_pos h2, List.filterMap_cons, h1, h2]
      simp only [Bool.true_and, if_pos]
      cases hl : ageLookup r.age_group_id <;> simp [hl]
    · have h2f : (decide (r.sex_name = "male") || decide (r.sex_name = "female")) = false := by
        simpa using h2
      rw [if_neg h2, h1, Bool.true_and, h2f]
      simp
  · have h1f : decide (r.location_id = 102) = false := by simpa using h1
    rw [if_neg h1, h1f, Bool.false_and]
    simp

lemma merged_row_props {input : List PopRow} {e : PopRow × ℚ × ℚ}
    (he : e ∈ mergedRows input) :
    e.1.location_id = 102 ∧ (e.1.sex_name = "male" ∨ e.1.sex_name = "female") ∧
      ageLookup e.1.age_group_id = some e.2 := by
  rw [mergedRows] at he
  obtain ⟨r, hr, hfr⟩ := List.mem_filterMap.mp he
  obtain ⟨ab, hab, habe⟩ := Option.map_eq_some'.mp hfr
  obtain ⟨hr2, hsex⟩ := List.mem_filter.mp hr
  obtain ⟨-, hloc⟩ := List.mem_filter.mp hr2
  rcases habe
  refine ⟨of_decide_eq_true hloc, ?_, hab⟩
  simpa using hsex

lemma merged_filter_key (k : GroupKey) (input : List PopRow) :
    (((mergedRows input).filter (fun e => decide (rowKey e.1 e.2 = k))).map
        (fun e => e.1.val)).sum
      = ((input.filter (inputCond k)).map (fun r => r.val)).sum := by
  induction input with
  | nil => rfl
  | cons r rest ih =>
      rw [mergedRows_cons, List.filter_cons]
      by_cases hc : (decide (r.location_id = 102) &&
          (decide (r.sex_name = "male") || decide (r.sex_name = "female"))) = true
      · rw [if_pos hc]
        cases hl : ageLookup r.age_group_id with
        | none =>
            have hcond : inputCond k r = false := by
              rw [inputCond, hl]
              simp
            rw [hcond]
            simpa using ih
        | some ab =>
            simp only [Option.map_some', Option.toList_some, List.singleton_append,
              List.filter_cons]
            by_cases hk : decide (rowKey r ab = k) = true
            · have hkeq := of_decide_eq_true hk
              have hcond : inputCond k r = true := by
                rw [inputCond, hl, ← hkeq, rowKey]
                simp only [hc, Bool.true_and, decide_eq_true_eq]
                simp
              rw [hk, hcond]
              simp [ih]
            · have hkf : decide (rowKey r ab = k) = false := by simpa using hk
              have hcond : inputCond k r = false := by
                rw [Bool.eq_false_iff]
                intro habs
                apply hk
                rw [inputCond] at habs
                simp only [Bool.and_eq_true, decide_eq_true_eq] at habs
                obtain ⟨⟨⟨⟨⟨-, h3⟩, h4⟩, h5⟩, h6⟩, h7⟩ := habs
                rw [hl] at h3
                have habk : ab = (k.age_start, k.age_end) := by injection h3
                rw [decide_eq_true_eq, rowKey, habk]
                cases k
                simp_all
              rw [hkf, hcond]
              simpa using ih
      · have hcf : (decide (r.location_id = 102) &&
            (decide (r.sex_name = "male") || decide (r.sex_name = "female"))) = false := by
          simpa using hc
        rw [if_neg hc]
        have hcond : inputCond k r = false := by
          rw [inputCond, hcf, Bool.false_and]
          simp
        rw [hcond]
        simpa using ih

/-- **C10**: every row the population-aggregation script writes to `pops.csv`
has `location_id = 102`, `sex` equal to `"male"` or `"female"`, `year ≥ 1990`,
and a `population` equal to the sum of the input `val` values over the input
rows whose `age_group_id` is mapped to the `(age_start, age_end)` bin of the row
and whose sex, location and year match the row. -/
theorem manipulate_pops_row_invariant (input : List PopRow) (row : OutRow)
    (hrow : row ∈ manipulate_pops input) :
    row.location_id = 102 ∧ (row.sex = "male" ∨ row.sex = "female") ∧
    1990 ≤ row.year ∧
    row.population = ((input.filter (inputCond
        ⟨row.age_start, row.age_end, row.sex, row.location_name,
          row.location_id, row.year⟩)).map (fun r => r.val)).sum := by
  rw [manipulate_pops] at hrow
  obtain ⟨⟨k, v⟩, hmem, hEq⟩ := List.mem_map.mp hrow
  obtain ⟨hagg, hyear⟩ := List.mem_filter.mp hmem
  rw [aggRows] at hagg
  obtain ⟨k1, hk1, hkv⟩ := List.mem_map.mp hagg
  have hkk : k1 = k := congrArg Prod.fst hkv
  have hv : (((mergedRows input).filter (fun e => decide (rowKey e.1 e.2 = k1))).map
      (fun e => e.1.val)).sum = v := congrArg Prod.snd hkv
  subst hkk
  rw [groupKeys] at hk1
  obtain ⟨e, he, hek⟩ := List.mem_map.mp (List.mem_dedup.mp hk1)
  obtain ⟨hloc, hsex, -⟩ := merged_row_props he
  subst hEq
  have hkey : (⟨k1.age_start, k1.age_end, k1.sex, k1.location_name, k1.location_id,
      k1.year_id⟩ : GroupKey) = k1 := rfl
  refine ⟨?_, ?_, ?_, ?_⟩
  · show k1.location_id = 102
    rw [← hek]
    exact hloc
  · show k1.sex = "male" ∨ k1.sex = "female"
    rw [← hek]
    exact hsex
  · exact of_decide_eq_true hyear
  · show v = _
    rw [hkey, ← hv]
    exact merged_filter_key k1 input

/-- Witness for C10: a single U.S.A. male row in age group 5 (mapped to the
bin `(1, 4)`) in 1995 with population value 7. -/
theorem manipulate_pops_row_invariant_witness :
    (⟨1, 4, "male", "USA", 102, 1995, 7⟩ : OutRow).location_id = 102 ∧
    ((⟨1, 4, "male", "USA", 102, 1995, 7⟩ : OutRow).sex = "male" ∨
      (⟨1, 4, "male", "USA", 102, 1995, 7⟩ : OutRow).sex = "female") ∧
    (1990 : ℤ) ≤ (⟨1, 4, "male", "USA", 102, 1995, 7⟩ : OutRow).year ∧
    (⟨1, 4, "male", "USA", 102, 1995, 7⟩ : OutRow).population
      = ((([⟨102, "USA", "male", 5, 1995, 7⟩] : List PopRow).filter (inputCond
          ⟨1, 4, "male", "USA", 102, 1995⟩)).map (fun r => r.val)).sum :=
  manipulate_pops_row_invariant [⟨102, "USA", "male", 5, 1995, 7⟩]
    ⟨1, 4, "male", "USA", 102, 1995, 7⟩ (by
      rw [show manipulate_pops [⟨102, "USA", "male", 5, 1995, 7⟩]
          = [⟨1, 4, "male", "USA", 102, 1995, 7⟩] from by
        simp [manipulate_pops, aggRows, groupKeys, mergedRows, rowKey,
          ageLookup, age_df, ages, age_start_vals, age_end_vals]]
      exact List.mem_singleton.mpr rfl)

end Underreporting.Pops
